import Mathlib

/- Verification development for the transport layer of GENERATOR/riden.py.

Shallow embedding conventions:
  * byte strings are `List Nat` (each element intended < 256);
  * `BufferIO` read buffers are `Buf` values (backing data plus a read
    position); write buffers, which are only ever appended to and drained
    with `getvalue()`, are plain `List Nat`;
  * the wrapped inner transport is modelled by `InnerTrans`: a memory-backed
    byte source (`rdata`) together with failure flags for its `write` and
    `flush` methods and a log (`ops`) of the write/flush calls it received;
  * a Python exception is `none` / a `false` success flag; when an
    operation raises, the state returned alongside the flag is the state
    the mutated objects are left in when the exception propagates;
  * `struct.pack("!i", n)` on a length n is modelled by `encodeBE32`
    (big-endian bytes of n mod 2^32) and `struct.unpack("!i", b)` by the
    signed decoder `decodeI32`; theorems about well-formed frames carry
    the hypothesis `length < 2^31` under which the round-trip is exact. -/

abbrev Bytes := List Nat

/-- Model of `struct.pack("!i", n)` for a nonnegative length n: the four
big-endian bytes of n (mod 2^32). -/
def encodeBE32 (n : Nat) : Bytes :=
  [n / 2 ^ 24 % 256, n / 2 ^ 16 % 256, n / 2 ^ 8 % 256, n % 256]

/-- Big-endian value of a byte string. -/
def beVal (bs : Bytes) : Nat := bs.foldl (fun a b => a * 256 + b) 0

/-- Model of `struct.unpack("!i", bs)`: signed 32-bit big-endian decode. -/
def decodeI32 (bs : Bytes) : Int :=
  let u := beVal bs
  if u < 2 ^ 31 then (u : Int) else (u : Int) - 2 ^ 32

/-- Model of a `BufferIO` object opened for reading: backing bytes plus the
current read position. -/
structure Buf where
  data : Bytes
  pos : Nat
deriving DecidableEq, Repr

/-- `BufferIO(bs)`: fresh read buffer positioned at the start. -/
def Buf.ofBytes (bs : Bytes) : Buf := ⟨bs, 0⟩

/-- `buf.read(sz)`: return up to `sz` bytes from the current position and
advance the position by the number of bytes returned. -/
def Buf.read (b : Buf) (sz : Nat) : Bytes × Buf :=
  let ret := (b.data.drop b.pos).take sz
  (ret, ⟨b.data, b.pos + ret.length⟩)

/-- `buf.getvalue()`: the whole backing byte string, position ignored. -/
def Buf.getvalue (b : Buf) : Bytes := b.data

/-- A write or flush call received by the wrapped inner transport. -/
inductive InnerOp where
  | write (b : Bytes)
  | flush
deriving DecidableEq, Repr

/-- Model of the wrapped inner transport: a memory-backed byte source for
reads, failure switches for `write`/`flush`, and the log of write/flush
calls it has received. -/
structure InnerTrans where
  rdata : Bytes
  wFail : Bool
  fFail : Bool
  ops : List InnerOp
deriving DecidableEq, Repr

/-- InnerTrans `read(sz)`: return up to `sz` bytes from the front of `rdata`. -/
def InnerTrans.read (sz : Nat) (i : InnerTrans) : Bytes × InnerTrans :=
  (i.rdata.take sz, { i with rdata := i.rdata.drop sz })

/-- InnerTrans `readAll(sz)` behaviour, written in closed form: exactly `sz`
bytes if available, otherwise EndOfFile (`none`).  The theorem
`readAll_eq_Inner_readAll` below proves this agrees with the generic
`TTransportBase.readAll` loop instantiated with `InnerTrans.read`. -/
def InnerTrans.readAll (sz : Nat) (i : InnerTrans) : Option (Bytes × InnerTrans) :=
  if sz ≤ i.rdata.length then
    some (i.rdata.take sz, { i with rdata := i.rdata.drop sz })
  else none

/-- InnerTrans `write(b)`: raise (`none`) when the failure switch is set,
otherwise record the call. -/
def InnerTrans.write (i : InnerTrans) (b : Bytes) : Option InnerTrans :=
  if i.wFail then none else some { i with ops := i.ops ++ [InnerOp.write b] }

/-- InnerTrans `flush()`: raise (`none`) when the failure switch is set,
otherwise record the call. -/
def InnerTrans.flush (i : InnerTrans) : Option InnerTrans :=
  if i.fFail then none else some { i with ops := i.ops ++ [InnerOp.flush] }

/-- Bytes placed on the wire by the inner transport so far: the
concatenation of the payloads of the write calls it received. -/
def InnerOp.payload : InnerOp → Bytes
  | .write b => b
  | .flush => []

/-- Concatenated payloads of all recorded write calls. -/
def InnerTrans.sent (i : InnerTrans) : Bytes := (i.ops.map InnerOp.payload).flatten

/-- The loop body of `TTransportBase.readAll`, over an arbitrary
underlying `read` (`rd`): while fewer than `sz` bytes are accumulated,
call `rd (sz - got)`, append the chunk, and raise EndOfFile (`none`) the
moment a chunk is empty. `got` is the source's `have`, `buff` the
accumulated bytes. -/
def readAllLoop {σ : Type} (rd : Nat → σ → Bytes × σ) (sz : Nat)
    (got : Nat) (buff : Bytes) (s : σ) : Option (Bytes × σ) :=
  if h : got < sz then
    let c := rd (sz - got) s
    if hc : c.1.length = 0 then none
    else readAllLoop rd sz (got + c.1.length) (buff ++ c.1) c.2
  else some (buff, s)
termination_by sz - got
decreasing_by simp_wf; exact Nat.sub_lt_sub_left h (Nat.lt_add_of_pos_right (Nat.pos_of_ne_zero hc))

/-- `TTransportBase.readAll(sz)`: run the loop from an empty accumulator. -/
def readAll {σ : Type} (rd : Nat → σ → Bytes × σ) (sz : Nat) (s : σ) :
    Option (Bytes × σ) :=
  readAllLoop rd sz 0 [] s

/-- `TBufferedTransport`: write buffer plus the wrapped inner transport.
The read path and read buffer are not needed by the claims and are left
out of the state. -/
structure TBufferedTransport where
  wbuf : Bytes
  trans : InnerTrans
deriving DecidableEq, Repr

/-- `TBufferedTransport.write(buf)`: append to the write buffer only.  The
source wraps the in-memory append in try/except; this is the happy path
(the append succeeds), used by the claims about write/flush sequences.
`TBufferedTransport.writeExc` below embeds the full try/except. -/
def TBufferedTransport.write (t : TBufferedTransport) (buf : Bytes) : TBufferedTransport :=
  { t with wbuf := t.wbuf ++ buf }

/-- `TBufferedTransport.write(buf)` with its except branch: try to append
`buf` to the write buffer; if the in-memory append raises (the oracle
`appendFails`, covering any partial append), the except branch replaces
the write buffer with a fresh empty one and re-raises.  The flag in the
result is false exactly when the exception propagates. -/
def TBufferedTransport.writeExc (t : TBufferedTransport) (buf : Bytes) (appendFails : Bool) :
    Bool × TBufferedTransport :=
  if appendFails then (false, { t with wbuf := [] })
  else (true, { t with wbuf := t.wbuf ++ buf })

/-- `TBufferedTransport.flush()`: take the whole write buffer, reset it to
empty, then write it to the inner transport in one call and flush the
inner transport.  The reset happens before the inner write, so a raising
inner write or flush still leaves the write buffer empty.  The returned
flag is false when an inner call raised. -/
def TBufferedTransport.flush (t : TBufferedTransport) : Bool × TBufferedTransport :=
  let out := t.wbuf
  let t1 := { t with wbuf := ([] : Bytes) }
  match t1.trans.write out with
  | none => (false, t1)
  | some i1 =>
    match i1.flush with
    | none => (false, { t1 with trans := i1 })
    | some i2 => (true, { t1 with trans := i2 })

/-- `TFramedTransport`: frame read buffer, write buffer, and the wrapped
inner transport. -/
structure TFramedTransport where
  rbuf : Buf
  wbuf : Bytes
  trans : InnerTrans
deriving DecidableEq, Repr

/-- `TFramedTransport.write(buf)`: append to the write buffer. -/
def TFramedTransport.write (t : TFramedTransport) (buf : Bytes) : TFramedTransport :=
  { t with wbuf := t.wbuf ++ buf }

/-- `TFramedTransport.flush()`: prefix the buffered bytes with their 4-byte
big-endian length, clear the write buffer (before the inner write, as in
the source), write the framed bytes to the inner transport and flush it. -/
def TFramedTransport.flush (t : TFramedTransport) : Bool × TFramedTransport :=
  let wout := t.wbuf
  let wsz := wout.length
  let t1 := { t with wbuf := ([] : Bytes) }
  match t1.trans.write (encodeBE32 wsz ++ wout) with
  | none => (false, t1)
  | some i1 =>
    match i1.flush with
    | none => (false, { t1 with trans := i1 })
    | some i2 => (true, { t1 with trans := i2 })

/-- `TFramedTransport.readFrame()`: read a 4-byte length with `readAll`,
decode it as signed big-endian, then `readAll` that many bytes into a
fresh read buffer.  A negative decoded length makes the Python
`readAll(sz)` return `b""` immediately, which `Int.toNat` reproduces. -/
def TFramedTransport.readFrame (t : TFramedTransport) : Option TFramedTransport :=
  match InnerTrans.readAll 4 t.trans with
  | none => none
  | some bi =>
    let sz := (decodeI32 bi.1).toNat
    match InnerTrans.readAll sz bi.2 with
    | none => none
    | some pi => some { t with rbuf := Buf.ofBytes pi.1, trans := pi.2 }

/-- `TFramedTransport.read(sz)`: serve from the frame read buffer when it
yields bytes; otherwise pull the next frame and serve from it. -/
def TFramedTransport.read (t : TFramedTransport) (sz : Nat) : Option (Bytes × TFramedTransport) :=
  let r := t.rbuf.read sz
  if r.1.length ≠ 0 then some (r.1, { t with rbuf := r.2 })
  else
    match t.readFrame with
    | none => none
    | some t1 =>
      let r2 := t1.rbuf.read sz
      some (r2.1, { t1 with rbuf := r2.2 })

/-- Reader driver for the round-trip claim: call `read sz` repeatedly,
concatenating the returned chunks (an empty chunk from a length-0 frame
does not stop the loop), until `read` raises EndOfFile because the inner
byte source is exhausted. -/
def drain (sz : Nat) (t : TFramedTransport) : Bytes :=
  match h : t.read sz with
  | none => []
  | some p => p.1 ++ drain sz p.2
termination_by t.rbuf.data.length - t.rbuf.pos + t.trans.rdata.length
decreasing_by
  simp_wf
  have key : ∀ (n : Nat) (i : InnerTrans) (r : Bytes × InnerTrans),
      InnerTrans.readAll n i = some r →
      n ≤ i.rdata.length ∧ r.2.rdata.length = i.rdata.length - n ∧ r.1.length = n := by
    intro n i r hh
    simp only [InnerTrans.readAll] at hh
    split at hh
    · rename_i hle
      cases hh
      exact ⟨hle, by simp, by simp [Nat.min_eq_left hle]⟩
    · exact Option.noConfusion hh
  have key2 : ∀ (u u1 : TFramedTransport), u.readFrame = some u1 →
      u1.rbuf.pos = 0 ∧ u1.rbuf.data.length + u1.trans.rdata.length + 4 = u.trans.rdata.length := by
    intro u u1 hh
    simp only [TFramedTransport.readFrame] at hh
    split at hh
    · exact Option.noConfusion hh
    · rename_i bi h4
      split at hh
      · exact Option.noConfusion hh
      · rename_i pi hp
        cases hh
        obtain ⟨ha, hb, hc⟩ := key _ _ _ h4
        obtain ⟨hd, he, hf⟩ := key _ _ _ hp
        refine ⟨rfl, ?_⟩
        simp only [Buf.ofBytes]
        omega
  simp only [TFramedTransport.read] at h
  split at h
  · rename_i hne
    cases h
    simp only [Buf.read, List.length_take, List.length_drop] at hne ⊢
    omega
  · rename_i hemp
    split at h
    · exact Option.noConfusion h
    · rename_i t1 hf
      cases h
      obtain ⟨hp0, hlen⟩ := key2 _ _ hf
      simp only [Buf.read, List.length_take, List.length_drop]
      omega

/-- `TFramedTransport.cstringio_refill(pfx, reqlen)`: while the
accumulated bytes are shorter than `reqlen`, read the next frame and
append its whole payload; then install the accumulated bytes as the new
read buffer.  EndOfFile from `readFrame` propagates as `none`. -/
def TFramedTransport.cstringio_refill (t : TFramedTransport) (pfx : Bytes) (reqlen : Nat) :
    Option TFramedTransport :=
  if pfx.length < reqlen then
    match h : t.readFrame with
    | none => none
    | some t1 => t1.cstringio_refill (pfx ++ t1.rbuf.getvalue) reqlen
  else some { t with rbuf := Buf.ofBytes pfx }
termination_by t.trans.rdata.length
decreasing_by
  simp_wf
  have key : ∀ (n : Nat) (i : InnerTrans) (r : Bytes × InnerTrans),
      InnerTrans.readAll n i = some r →
      n ≤ i.rdata.length ∧ r.2.rdata.length = i.rdata.length - n ∧ r.1.length = n := by
    intro n i r hh
    simp only [InnerTrans.readAll] at hh
    split at hh
    · rename_i hle
      cases hh
      exact ⟨hle, by simp, by simp [Nat.min_eq_left hle]⟩
    · exact Option.noConfusion hh
  simp only [TFramedTransport.readFrame] at h
  split at h
  · exact Option.noConfusion h
  · rename_i bi h4
    split at h
    · exact Option.noConfusion h
    · rename_i pi hp
      cases h
      obtain ⟨ha, hb, hc⟩ := key _ _ _ h4
      obtain ⟨hd, he, hf⟩ := key _ _ _ hp
      simp only []
      omega

/-- One frame on the wire: 4-byte big-endian length followed by the
payload, exactly what `TFramedTransport.flush` emits for that payload. -/
def encodeFrame (m : Bytes) : Bytes := encodeBE32 m.length ++ m

/-- A sequence of frames on the wire. -/
def encodeFrames (ms : List Bytes) : Bytes := (ms.map encodeFrame).flatten

/-- Total payload length of a list of byte strings. -/
def payloadLen (ms : List Bytes) : Nat := (ms.map List.length).sum

/-- Writer driver for the round-trip claim: send each message with one
`write` followed by one `flush`. -/
def writeMsgs (ms : List Bytes) (t : TFramedTransport) : TFramedTransport :=
  ms.foldl (fun u m => ((u.write m).flush).2) t

/-- A fresh framed transport over a fresh, non-failing inner transport. -/
def freshFramed (rdata : Bytes) : TFramedTransport :=
  { rbuf := Buf.ofBytes [], wbuf := [], trans := { rdata := rdata, wFail := false, fFail := false, ops := [] } }

/-- Model of the file-like object wrapped by `TFileObjectTransport`. -/
structure FileObj where
  closed : Bool
  rdata : Bytes
  written : Bytes
deriving DecidableEq, Repr

/-- File object `close()`. -/
def FileObj.closeF (f : FileObj) : FileObj := { f with closed := true }

/-- File object `read(sz)`. -/
def FileObj.readF (f : FileObj) (sz : Nat) : Bytes × FileObj :=
  (f.rdata.take sz, { f with rdata := f.rdata.drop sz })

/-- File object `write(buf)`. -/
def FileObj.writeF (f : FileObj) (buf : Bytes) : FileObj :=
  { f with written := f.written ++ buf }

/-- File object `flush()` (no observable effect in the model). -/
def FileObj.flushF (f : FileObj) : FileObj := f

/-- `TFileObjectTransport`: wraps a file-like object. -/
structure TFileObjectTransport where
  fileobj : FileObj
deriving DecidableEq, Repr

/-- `TFileObjectTransport.isOpen()`: the source returns True
unconditionally. -/
def TFileObjectTransport.isOpen (_ : TFileObjectTransport) : Bool := true

/-- `TFileObjectTransport.close()`: forwards to the file object. -/
def TFileObjectTransport.close (t : TFileObjectTransport) : TFileObjectTransport :=
  ⟨t.fileobj.closeF⟩

/-- `TFileObjectTransport.read(sz)`: forwards to the file object. -/
def TFileObjectTransport.read (t : TFileObjectTransport) (sz : Nat) :
    Bytes × TFileObjectTransport :=
  let r := t.fileobj.readF sz
  (r.1, ⟨r.2⟩)

/-- `TFileObjectTransport.write(buf)`: forwards to the file object. -/
def TFileObjectTransport.write (t : TFileObjectTransport) (buf : Bytes) : TFileObjectTransport :=
  ⟨t.fileobj.writeF buf⟩

/-- `TFileObjectTransport.flush()`: forwards to the file object. -/
def TFileObjectTransport.flush (t : TFileObjectTransport) : TFileObjectTransport :=
  ⟨t.fileobj.flushF⟩

/-- One transport-contract call on a `TFileObjectTransport`, used to
enumerate the reachable states. -/
inductive FOOp where
  | rd (sz : Nat)
  | wr (b : Bytes)
  | fl
  | cl
deriving DecidableEq, Repr

/-- Apply one call (discarding any read result). -/
def applyFOOp (t : TFileObjectTransport) : FOOp → TFileObjectTransport
  | .rd sz => (t.read sz).2
  | .wr b => t.write b
  | .fl => t.flush
  | .cl => t.close

/-- Apply a sequence of calls. -/
def applyFOOps (t : TFileObjectTransport) (ops : List FOOp) : TFileObjectTransport :=
  ops.foldl applyFOOp t

/-- `TSaslClientTransport` data state: write buffer, frame read buffer and
the wrapped inner transport.  The SASL capability is passed to the
operations as explicit `wrap`/`unwrap` functions (data phase) or as a
`SaslCap` (handshake phase). -/
structure TSaslClientTransport where
  wbuf : Bytes
  rbuf : Buf
  trans : InnerTrans
deriving DecidableEq, Repr

/-- Handshake status byte `START`. -/
def TSaslClientTransport.START : Nat := 1

/-- Handshake status byte `OK`. -/
def TSaslClientTransport.OK : Nat := 2

/-- Handshake status byte `BAD`. -/
def TSaslClientTransport.BAD : Nat := 3

/-- Handshake status byte `ERROR`. -/
def TSaslClientTransport.ERROR : Nat := 4

/-- Handshake status byte `COMPLETE`. -/
def TSaslClientTransport.COMPLETE : Nat := 5

/-- `TSaslClientTransport.write(data)`: append to the write buffer. -/
def TSaslClientTransport.write (t : TSaslClientTransport) (data : Bytes) : TSaslClientTransport :=
  { t with wbuf := t.wbuf ++ data }

/-- `TSaslClientTransport.flush()`: wrap the accumulated write buffer,
write its 4-byte big-endian length followed by the wrapped payload to the
inner transport, flush the inner transport, and only then reset the write
buffer — so a raising inner write leaves the write buffer untouched. -/
def TSaslClientTransport.flush (wrap : Bytes → Bytes) (t : TSaslClientTransport) :
    Bool × TSaslClientTransport :=
  let data := t.wbuf
  let encoded := wrap data
  match t.trans.write (encodeBE32 encoded.length ++ encoded) with
  | none => (false, t)
  | some i1 =>
    match i1.flush with
    | none => (false, { t with trans := i1 })
    | some i2 => (true, { t with trans := i2, wbuf := [] })

/-- `TSaslClientTransport._read_frame()`: read the 4-byte length and that
many wrapped bytes from the inner transport, un-wrap them, and install the
result as the new read buffer. -/
def TSaslClientTransport.read_frame (unwrap : Bytes → Bytes) (t : TSaslClientTransport) :
    Option TSaslClientTransport :=
  match InnerTrans.readAll 4 t.trans with
  | none => none
  | some hi =>
    let len := (decodeI32 hi.1).toNat
    match InnerTrans.readAll len hi.2 with
    | none => none
    | some ei => some { t with rbuf := Buf.ofBytes (unwrap ei.1), trans := ei.2 }

/-- `TSaslClientTransport.cstringio_refill(pfx, reqlen)`: like the framed
refill but each frame payload passes through `unwrap` first. -/
def TSaslClientTransport.cstringio_refill (unwrap : Bytes → Bytes) (t : TSaslClientTransport)
    (pfx : Bytes) (reqlen : Nat) : Option TSaslClientTransport :=
  if pfx.length < reqlen then
    match h : t.read_frame unwrap with
    | none => none
    | some t1 => TSaslClientTransport.cstringio_refill unwrap t1 (pfx ++ t1.rbuf.getvalue) reqlen
  else some { t with rbuf := Buf.ofBytes pfx }
termination_by t.trans.rdata.length
decreasing_by
  simp_wf
  have key : ∀ (n : Nat) (i : InnerTrans) (r : Bytes × InnerTrans),
      InnerTrans.readAll n i = some r →
      n ≤ i.rdata.length ∧ r.2.rdata.length = i.rdata.length - n ∧ r.1.length = n := by
    intro n i r hh
    simp only [InnerTrans.readAll] at hh
    split at hh
    · rename_i hle
      cases hh
      exact ⟨hle, by simp, by simp [Nat.min_eq_left hle]⟩
    · exact Option.noConfusion hh
  simp only [TSaslClientTransport.read_frame] at h
  split at h
  · exact Option.noConfusion h
  · rename_i hi h4
    split at h
    · exact Option.noConfusion h
    · rename_i ei hp
      cases h
      obtain ⟨ha, hb, hc⟩ := key _ _ _ h4
      obtain ⟨hd, he, hf⟩ := key _ _ _ hp
      simp only []
      omega

/-- The authentication capability consumed by the handshake, with abstract
internal state `σ`: the chosen mechanism name, `process` (called with no
challenge for the initial token, mirroring `self.sasl.process()`), and the
completion flag. -/
structure SaslCap (σ : Type) where
  mechanism : Bytes
  process : σ → Option Bytes → Bytes × σ
  complete : σ → Bool

/-- A message sent to the peer: either a handshake message
(`send_sasl_msg`, a status byte plus body) or a wrapped data frame (only
ever produced by the data-phase `flush`, never by `open`). -/
inductive SaslEvent where
  | saslMsg (status : Nat) (body : Bytes)
  | dataFrame (payload : Bytes)
deriving DecidableEq, Repr

/-- Whether an event is a wrapped data frame. -/
def SaslEvent.isData : SaslEvent → Bool
  | .dataFrame _ => true
  | .saslMsg _ _ => false

/-- Outcome of `TSaslClientTransport.open`: handshake success, the NotOpen
transport exception, or the supplied list of peer messages ran out.  Each
outcome carries the messages sent so far. -/
inductive OpenResult (σ : Type) where
  | success (st : σ) (sends : List SaslEvent)
  | notOpen (sends : List SaslEvent)
  | outOfInput (sends : List SaslEvent)

/-- The `while True` negotiation loop of `TSaslClientTransport.open`,
driven by the list of `(status, challenge)` messages the peer sends (the
results of successive `recv_sasl_msg` calls): on `OK` send the processed
challenge and continue; on `COMPLETE` succeed if the capability agrees it
is complete and raise NotOpen otherwise; on any other status raise
NotOpen. -/
def saslOpenLoop {σ : Type} (cap : SaslCap σ) :
    List (Nat × Bytes) → σ → List SaslEvent → OpenResult σ
  | [], _, sends => .outOfInput sends
  | (status, challenge) :: rest, st, sends =>
    if status = TSaslClientTransport.OK then
      let pr := cap.process st (some challenge)
      saslOpenLoop cap rest pr.2 (sends ++ [.saslMsg TSaslClientTransport.OK pr.1])
    else if status = TSaslClientTransport.COMPLETE then
      if cap.complete st then .success st sends else .notOpen sends
    else .notOpen sends

/-- `TSaslClientTransport.open()`: send `(START, mechanism)` and
`(OK, initial token)`, then run the negotiation loop. -/
def TSaslClientTransport.openTrans {σ : Type} (cap : SaslCap σ) (st0 : σ)
    (msgs : List (Nat × Bytes)) : OpenResult σ :=
  let pr := cap.process st0 none
  saslOpenLoop cap msgs pr.2
    [SaslEvent.saslMsg TSaslClientTransport.START cap.mechanism,
     SaslEvent.saslMsg TSaslClientTransport.OK pr.1]

/-- Capability state after processing the challenges of a message list in
order. -/
def processPrefix {σ : Type} (cap : SaslCap σ) (msgs : List (Nat × Bytes)) (st : σ) : σ :=
  msgs.foldl (fun s m => (cap.process s (some m.2)).2) st

theorem encodeBE32_length (n : Nat) : (encodeBE32 n).length = 4 := rfl

theorem beVal_encodeBE32 (n : Nat) (h : n < 2 ^ 32) : beVal (encodeBE32 n) = n := by
  simp only [beVal, encodeBE32, List.foldl]
  omega

theorem decodeI32_encodeBE32 (n : Nat) (h : n < 2 ^ 31) :
    (decodeI32 (encodeBE32 n)).toNat = n := by
  have hv : beVal (encodeBE32 n) = n := beVal_encodeBE32 n (by omega)
  simp only [decodeI32, hv]
  rw [if_pos (by omega : n < 2 ^ 31)]
  simp

theorem readAllLoop_unfold {σ : Type} (rd : Nat → σ → Bytes × σ) (sz got : Nat)
    (buff : Bytes) (s : σ) :
    readAllLoop rd sz got buff s =
      if got < sz then
        if (rd (sz - got) s).1.length = 0 then none
        else readAllLoop rd sz (got + (rd (sz - got) s).1.length)
          (buff ++ (rd (sz - got) s).1) (rd (sz - got) s).2
      else some (buff, s) := by
  rw [readAllLoop]
  simp

/-- The source's `readAll` loop, run against the memory-backed inner
transport, agrees with the closed-form `InnerTrans.readAll` used in the
frame-reading definitions. -/
theorem readAll_agrees (sz : Nat) (i : InnerTrans) :
    readAll InnerTrans.read sz i = InnerTrans.readAll sz i := by
  obtain ⟨rdt, wf, ff, os⟩ := i
  unfold readAll
  rw [readAllLoop_unfold]
  rcases Nat.eq_zero_or_pos sz with h0 | h0
  · subst h0
    simp [InnerTrans.readAll]
  by_cases hle : sz ≤ rdt.length
  · have hlen : (InnerTrans.read (sz - 0) ⟨rdt, wf, ff, os⟩).1.length = sz := by
      simp [InnerTrans.read]
      omega
    rw [if_pos h0, if_neg (by omega)]
    rw [readAllLoop_unfold]
    rw [if_neg (by omega)]
    simp [InnerTrans.read, InnerTrans.readAll, hle]
  · by_cases hz : rdt.length = 0
    · have hnil : rdt = [] := List.length_eq_zero.mp hz
      subst hnil
      rw [if_pos h0]
      rw [if_pos (by simp [InnerTrans.read])]
      simp only [InnerTrans.readAll]
      rw [if_neg hle]
    · have hlen : (InnerTrans.read (sz - 0) ⟨rdt, wf, ff, os⟩).1.length = rdt.length := by
        simp [InnerTrans.read]
        omega
      rw [if_pos h0, if_neg (by omega)]
      rw [readAllLoop_unfold]
      rw [if_pos (by omega)]
      rw [if_pos (by simp [InnerTrans.read]; omega)]
      simp [InnerTrans.readAll, hle]

theorem readAllLoop_exact {σ : Type} (rd : Nat → σ → Bytes × σ)
    (hrd : ∀ k s, (rd k s).1.length ≤ k) (sz : Nat) :
    ∀ (n got : Nat) (buff : Bytes) (s : σ) (bs : Bytes) (s2 : σ),
      sz - got ≤ n → buff.length = got → got ≤ sz →
      readAllLoop rd sz got buff s = some (bs, s2) → bs.length = sz := by
  intro n
  induction n with
  | zero =>
    intro got buff s bs s2 hn hb hg h
    rw [readAllLoop_unfold] at h
    rw [if_neg (by omega)] at h
    cases h
    omega
  | succ n ih =>
    intro got buff s bs s2 hn hb hg h
    rw [readAllLoop_unfold] at h
    by_cases hlt : got < sz
    · rw [if_pos hlt] at h
      by_cases hc : (rd (sz - got) s).1.length = 0
      · rw [if_pos hc] at h
        exact Option.noConfusion h
      · rw [if_neg hc] at h
        have hbnd := hrd (sz - got) s
        exact ih (got + (rd (sz - got) s).1.length) (buff ++ (rd (sz - got) s).1) _ bs s2
          (by omega) (by simp [hb]) (by omega) h
    · rw [if_neg hlt] at h
      cases h
      omega

/-- C2: for any underlying transport whose `read(k)` returns at most `k`
bytes, when `readAll(sz)` returns (rather than raising EndOfFile) it
returns exactly `sz` bytes; it never returns fewer than `sz` bytes
without raising. -/
theorem readAll_exact {σ : Type} (rd : Nat → σ → Bytes × σ)
    (hrd : ∀ k s, (rd k s).1.length ≤ k) (sz : Nat) (s : σ) (bs : Bytes) (s2 : σ)
    (h : readAll rd sz s = some (bs, s2)) : bs.length = sz :=
  readAllLoop_exact rd hrd sz sz 0 [] s bs s2 (by omega) rfl (by omega) h

/-- Witness for C2 at a concrete transport and request. -/
theorem readAll_exact_witness :
    readAll InnerTrans.read 2 ⟨[7, 8, 9], false, false, []⟩ =
      some ([7, 8], ⟨[9], false, false, []⟩) ∧ ([7, 8] : Bytes).length = 2 := by
  have he : readAll InnerTrans.read 2 ⟨[7, 8, 9], false, false, []⟩ =
      some ([7, 8], ⟨[9], false, false, []⟩) := by
    rw [readAll_agrees]
    decide
  refine ⟨he, readAll_exact InnerTrans.read ?_ 2 _ _ _ he⟩
  intro k s
  simp only [InnerTrans.read, List.length_take]
  exact Nat.min_le_left _ _

theorem take_drop_cover (n : Nat) (xs : Bytes) :
    xs.take n ++ xs.drop (xs.take n).length = xs := by
  rcases le_total n xs.length with h | h
  · rw [List.length_take, Nat.min_eq_left h, List.take_append_drop]
  · rw [List.take_of_length_le h]
    simp

theorem drain_unfold (sz : Nat) (t : TFramedTransport) :
    drain sz t = match t.read sz with
      | none => []
      | some p => p.1 ++ drain sz p.2 := by
  rw [drain]
  rcases hr : t.read sz with _ | p <;> simp [hr]

theorem framed_refill_unfold (t : TFramedTransport) (pfx : Bytes) (reqlen : Nat) :
    t.cstringio_refill pfx reqlen =
      if pfx.length < reqlen then
        match t.readFrame with
        | none => none
        | some t1 => t1.cstringio_refill (pfx ++ t1.rbuf.getvalue) reqlen
      else some { t with rbuf := Buf.ofBytes pfx } := by
  rw [TFramedTransport.cstringio_refill]
  rcases hr : t.readFrame with _ | t1 <;> simp [hr]

theorem sasl_refill_unfold (unwrap : Bytes → Bytes) (t : TSaslClientTransport)
    (pfx : Bytes) (reqlen : Nat) :
    TSaslClientTransport.cstringio_refill unwrap t pfx reqlen =
      if pfx.length < reqlen then
        match t.read_frame unwrap with
        | none => none
        | some t1 => TSaslClientTransport.cstringio_refill unwrap t1 (pfx ++ t1.rbuf.getvalue) reqlen
      else some { t with rbuf := Buf.ofBytes pfx } := by
  rw [TSaslClientTransport.cstringio_refill]
  rcases hr : t.read_frame unwrap with _ | t1 <;> simp [hr]

theorem InnerTrans.readAll_exact_pfx (a b : Bytes) (i : InnerTrans) (n : Nat)
    (hn : n = a.length) (hr : i.rdata = a ++ b) :
    InnerTrans.readAll n i = some (a, { i with rdata := b }) := by
  subst hn
  simp only [InnerTrans.readAll, hr]
  rw [if_pos (by simp)]
  simp

theorem readFrame_frame (t : TFramedTransport) (f rest : Bytes) (hf : f.length < 2 ^ 31)
    (hch : t.trans.rdata = encodeFrame f ++ rest) :
    t.readFrame = some { t with rbuf := Buf.ofBytes f, trans := { t.trans with rdata := rest } } := by
  have h4 := InnerTrans.readAll_exact_pfx (encodeBE32 f.length) (f ++ rest) t.trans 4
    (encodeBE32_length f.length).symm (by rw [hch]; simp [encodeFrame])
  have hp := InnerTrans.readAll_exact_pfx f rest { t.trans with rdata := f ++ rest } f.length rfl rfl
  simp only [TFramedTransport.readFrame, h4]
  simp [decodeI32_encodeBE32 f.length hf, hp]

theorem readFrame_short (t : TFramedTransport) (hch : t.trans.rdata.length < 4) :
    t.readFrame = none := by
  simp only [TFramedTransport.readFrame, InnerTrans.readAll]
  rw [if_neg (by omega)]

theorem drain_expended (sz : Nat) (d : Bytes) (pos : Nat) (wb : Bytes) (i : InnerTrans)
    (hpos : d.length ≤ pos) :
    drain sz ⟨⟨d, pos⟩, wb, i⟩ = drain sz ⟨⟨d, d.length⟩, wb, i⟩ := by
  rw [drain_unfold, drain_unfold]
  have h1 : List.drop pos d = [] := List.drop_eq_nil_of_le hpos
  have h2 : List.drop d.length d = [] := by simp
  rcases hra : InnerTrans.readAll 4 i with _ | bi
  · simp [TFramedTransport.read, TFramedTransport.readFrame, Buf.read, h1, h2, hra]
  · rcases hrb : InnerTrans.readAll (decodeI32 bi.1).toNat bi.2 with _ | pi
    · simp [TFramedTransport.read, TFramedTransport.readFrame, Buf.read, h1, h2, hra, hrb]
    · simp [TFramedTransport.read, TFramedTransport.readFrame, Buf.read, h1, h2, hra, hrb]

theorem drain_serve (sz : Nat) (hsz : 1 ≤ sz) (d wb : Bytes) (i : InnerTrans) :
    ∀ (n pos : Nat), d.length - pos ≤ n →
    drain sz ⟨⟨d, pos⟩, wb, i⟩ = d.drop pos ++ drain sz ⟨⟨d, d.length⟩, wb, i⟩ := by
  intro n
  induction n with
  | zero =>
    intro pos hn
    have hpos : d.length ≤ pos := by omega
    rw [drain_expended sz d pos wb i hpos, List.drop_eq_nil_of_le hpos]
    simp
  | succ n ih =>
    intro pos hn
    by_cases hpos : d.length ≤ pos
    · rw [drain_expended sz d pos wb i hpos, List.drop_eq_nil_of_le hpos]
      simp
    · push_neg at hpos
      have hne : ((d.drop pos).take sz).length ≠ 0 := by
        simp only [List.length_take, List.length_drop]
        omega
      have hge : 1 ≤ ((d.drop pos).take sz).length := Nat.pos_of_ne_zero hne
      have hread : TFramedTransport.read ⟨⟨d, pos⟩, wb, i⟩ sz =
          some ((d.drop pos).take sz,
            ⟨⟨d, pos + ((d.drop pos).take sz).length⟩, wb, i⟩) := by
        simp only [TFramedTransport.read, Buf.read]
        rw [if_pos hne]
      rw [drain_unfold]
      simp only [hread]
      rw [ih (pos + ((d.drop pos).take sz).length) (by omega)]
      rw [← List.append_assoc]
      congr 1
      have hdd : List.drop (pos + ((d.drop pos).take sz).length) d =
          List.drop ((d.drop pos).take sz).length (List.drop pos d) := by
        rw [List.drop_drop, Nat.add_comm]
      rw [hdd]
      exact take_drop_cover sz (d.drop pos)

theorem encodeFrames_cons (m : Bytes) (rest : List Bytes) :
    encodeFrames (m :: rest) = encodeFrame m ++ encodeFrames rest := by
  simp [encodeFrames]

theorem drain_frames (sz : Nat) (hsz : 1 ≤ sz) :
    ∀ (ms : List Bytes), (∀ m ∈ ms, m.length < 2 ^ 31) →
    ∀ (d wb : Bytes) (wf ff : Bool) (os : List InnerOp),
    drain sz ⟨⟨d, d.length⟩, wb, ⟨encodeFrames ms, wf, ff, os⟩⟩ = ms.flatten := by
  intro ms
  induction ms with
  | nil =>
    intro _ d wb wf ff os
    rw [drain_unfold]
    have hfr : TFramedTransport.readFrame ⟨⟨d, d.length⟩, wb, ⟨encodeFrames [], wf, ff, os⟩⟩ = none :=
      readFrame_short _ (by simp [encodeFrames])
    have hread : TFramedTransport.read ⟨⟨d, d.length⟩, wb, ⟨encodeFrames [], wf, ff, os⟩⟩ sz = none := by
      simp only [TFramedTransport.read, Buf.read]
      rw [if_neg (by simp)]
      simp [hfr]
    simp [hread]
  | cons m rest ih =>
    intro hms d wb wf ff os
    have hm : m.length < 2 ^ 31 := hms m (by simp)
    have hrest : ∀ x ∈ rest, x.length < 2 ^ 31 := fun x hx => hms x (by simp [hx])
    have hfr : TFramedTransport.readFrame ⟨⟨d, d.length⟩, wb, ⟨encodeFrames (m :: rest), wf, ff, os⟩⟩ =
        some ⟨Buf.ofBytes m, wb, ⟨encodeFrames rest, wf, ff, os⟩⟩ := by
      have h := readFrame_frame ⟨⟨d, d.length⟩, wb, ⟨encodeFrames (m :: rest), wf, ff, os⟩⟩
        m (encodeFrames rest) hm (by simp [encodeFrames_cons])
      simpa using h
    have hread : TFramedTransport.read ⟨⟨d, d.length⟩, wb, ⟨encodeFrames (m :: rest), wf, ff, os⟩⟩ sz =
        some (m.take sz, ⟨⟨m, (m.take sz).length⟩, wb, ⟨encodeFrames rest, wf, ff, os⟩⟩) := by
      simp only [TFramedTransport.read, Buf.read]
      rw [if_neg (by simp)]
      simp [hfr, Buf.ofBytes, Buf.read]
    rw [drain_unfold]
    simp only [hread]
    rw [drain_serve sz hsz m wb ⟨encodeFrames rest, wf, ff, os⟩ m.length ((m.take sz).length)
      (by omega)]
    rw [ih hrest m wb wf ff os]
    rw [← List.append_assoc, take_drop_cover sz m]
    simp

theorem writeMsgs_state (ms : List Bytes) :
    ∀ (rb : Buf) (rdt : Bytes) (os : List InnerOp),
    writeMsgs ms ⟨rb, [], ⟨rdt, false, false, os⟩⟩ =
      ⟨rb, [], ⟨rdt, false, false,
        os ++ (ms.map fun m => [InnerOp.write (encodeFrame m), InnerOp.flush]).flatten⟩⟩ := by
  induction ms with
  | nil =>
    intro rb rdt os
    simp [writeMsgs]
  | cons m rest ih =>
    intro rb rdt os
    simp only [writeMsgs, List.foldl_cons]
    have hstep : ((TFramedTransport.write ⟨rb, [], ⟨rdt, false, false, os⟩⟩ m).flush).2 =
        ⟨rb, [], ⟨rdt, false, false, os ++ [InnerOp.write (encodeFrame m), InnerOp.flush]⟩⟩ := by
      simp [TFramedTransport.write, TFramedTransport.flush, InnerTrans.write, InnerTrans.flush,
        encodeFrame]
    rw [hstep]
    have h := ih rb rdt (os ++ [InnerOp.write (encodeFrame m), InnerOp.flush])
    simp only [writeMsgs] at h
    rw [h]
    simp

theorem sent_of_frame_ops (ms : List Bytes) :
    InnerTrans.sent ⟨[], false, false,
      (ms.map fun m => [InnerOp.write (encodeFrame m), InnerOp.flush]).flatten⟩ =
    encodeFrames ms := by
  induction ms with
  | nil => simp [InnerTrans.sent, encodeFrames]
  | cons m rest ih =>
    simp only [InnerTrans.sent] at ih ⊢
    rw [List.map_cons, List.flatten_cons, List.map_append, List.flatten_append, ih,
      encodeFrames_cons]
    simp [InnerOp.payload]

/-- C1: round trip through a pair of framed transports over a shared byte
channel.  The writer sends each message of the chosen partition with one
`write` followed by one `flush`; the bytes its inner transport put on the
wire are exactly the encoded frames, and a peer framed transport reading
those bytes until EndOfFile returns the concatenation of the messages,
i.e. the original byte sequence. -/
theorem framed_roundtrip (ms : List Bytes) (sz : Nat)
    (hms : ∀ m ∈ ms, m.length < 2 ^ 31) (hsz : 1 ≤ sz) :
    (writeMsgs ms (freshFramed [])).trans.sent = encodeFrames ms ∧
    drain sz (freshFramed ((writeMsgs ms (freshFramed [])).trans.sent)) = ms.flatten := by
  have hw : (writeMsgs ms (freshFramed [])).trans.sent = encodeFrames ms := by
    have h := writeMsgs_state ms (Buf.ofBytes []) [] []
    rw [show freshFramed [] = ⟨Buf.ofBytes [], [], ⟨[], false, false, []⟩⟩ from rfl, h]
    simpa using sent_of_frame_ops ms
  refine ⟨hw, ?_⟩
  rw [hw]
  exact drain_frames sz hsz ms hms [] [] false false []

/-- Witness for C1: two messages, one of them empty, read back with
request size 3. -/
theorem framed_roundtrip_witness :
    (writeMsgs [[104, 105], []] (freshFramed [])).trans.sent = encodeFrames [[104, 105], []] ∧
    drain 3 (freshFramed ((writeMsgs [[104, 105], []] (freshFramed [])).trans.sent)) =
      [104, 105] := by
  have h := framed_roundtrip [[104, 105], []] 3 (by decide) (by decide)
  simpa using h

theorem buffered_writes_accum (ws : List Bytes) :
    ∀ (t : TBufferedTransport),
    ws.foldl TBufferedTransport.write t =
      { t with wbuf := t.wbuf ++ ws.flatten } := by
  induction ws with
  | nil => intro t; simp
  | cons w rest ih =>
    intro t
    rw [List.foldl_cons, ih]
    simp [TBufferedTransport.write]

/-- C3: a sequence of buffered writes followed by one flush delivers to the
inner transport exactly one write call carrying the concatenation of all
the written byte strings, followed by exactly one inner flush; before the
flush the inner transport has received no call at all. -/
theorem buffered_single_write (ws : List Bytes) (rd0 : Bytes) (os : List InnerOp) :
    (ws.foldl TBufferedTransport.write
        ⟨[], ⟨rd0, false, false, os⟩⟩).trans.ops = os ∧
    TBufferedTransport.flush (ws.foldl TBufferedTransport.write ⟨[], ⟨rd0, false, false, os⟩⟩) =
      (true, ⟨[], ⟨rd0, false, false,
        os ++ [InnerOp.write ws.flatten, InnerOp.flush]⟩⟩) := by
  rw [buffered_writes_accum ws ⟨[], ⟨rd0, false, false, os⟩⟩]
  refine ⟨rfl, ?_⟩
  simp [TBufferedTransport.flush, InnerTrans.write, InnerTrans.flush]

/-- C9: the file-backed transport reports itself open in every state
reachable by any sequence of transport calls, including after `close`,
for every wrapped stream object. -/
theorem fileobject_always_open (ops : List FOOp) (t0 : TFileObjectTransport) :
    (applyFOOps t0 ops).isOpen = true := rfl

/-- C10: when the already-read prefix is at least `reqlen` bytes long, the
framed refill does not touch the inner transport (the whole transport
state other than the read buffer is unchanged, in particular no bytes are
consumed and no call is made) and installs exactly the prefix as the new
read buffer, discarding the previous read buffer. -/
theorem framed_refill_noop (t : TFramedTransport) (pfx : Bytes) (reqlen : Nat)
    (h : reqlen ≤ pfx.length) :
    t.cstringio_refill pfx reqlen = some { t with rbuf := Buf.ofBytes pfx } := by
  rw [framed_refill_unfold]
  rw [if_neg (by omega)]

/-- Witness for C10 at a concrete transport state. -/
theorem framed_refill_noop_witness :
    TFramedTransport.cstringio_refill ⟨⟨[9, 9], 1⟩, [7], ⟨[1, 2, 3], false, true, []⟩⟩ [5, 6] 2 =
      some ⟨⟨[5, 6], 0⟩, [7], ⟨[1, 2, 3], false, true, []⟩⟩ :=
  framed_refill_noop ⟨⟨[9, 9], 1⟩, [7], ⟨[1, 2, 3], false, true, []⟩⟩ [5, 6] 2 (by decide)

/-- C5: after a successful handshake, the SASL `flush` passes the whole
write buffer through `wrap`, writes one frame — the 4-byte big-endian
signed length of the wrapped payload followed by the wrapped payload — to
the inner transport, flushes the inner transport, and resets the write
buffer to empty; the emitted length field decodes back to the wrapped
payload's byte count. -/
theorem sasl_flush_wraps (wrap : Bytes → Bytes) (wb rd0 : Bytes) (rb : Buf)
    (os : List InnerOp) (hlen : (wrap wb).length < 2 ^ 31) :
    TSaslClientTransport.flush wrap ⟨wb, rb, ⟨rd0, false, false, os⟩⟩ =
      (true, ⟨[], rb, ⟨rd0, false, false,
        os ++ [InnerOp.write (encodeBE32 (wrap wb).length ++ wrap wb), InnerOp.flush]⟩⟩) ∧
    (decodeI32 (encodeBE32 (wrap wb).length)).toNat = (wrap wb).length := by
  constructor
  · simp [TSaslClientTransport.flush, InnerTrans.write, InnerTrans.flush]
  · exact decodeI32_encodeBE32 _ hlen

/-- Witness for C5 with the identity wrap and a one-byte buffer. -/
theorem sasl_flush_wraps_witness :
    TSaslClientTransport.flush id ⟨[7], ⟨[], 0⟩, ⟨[], false, false, []⟩⟩ =
      (true, ⟨[], ⟨[], 0⟩, ⟨[], false, false,
        [InnerOp.write (encodeBE32 (id ([7] : Bytes)).length ++ id ([7] : Bytes)),
          InnerOp.flush]⟩⟩) ∧
    (decodeI32 (encodeBE32 (id ([7] : Bytes)).length)).toNat = (id ([7] : Bytes)).length := by
  have h := sasl_flush_wraps id [7] [] ⟨[], 0⟩ [] (by decide)
  simpa using h

/-- C6 counterexample: flushing a buffered transport holding the byte 1
into an inner transport whose `write` raises.  The claim says the
buffered bytes are not cleared on such a failure, but the flush has
already reset the write buffer to empty. -/
theorem buffered_flush_clears_on_failure :
    TBufferedTransport.flush ⟨[1], ⟨[], true, false, []⟩⟩ =
      (false, ⟨[], ⟨[], true, false, []⟩⟩) ∧
    (TBufferedTransport.flush ⟨[1], ⟨[], true, false, []⟩⟩).2.wbuf ≠ [1] := by
  decide

/-- C6 amended: a failed buffered write leaves the write buffer empty
(never partially filled), and a successful one is the plain append; the
buffered and framed transports clear the write buffer on every flush —
even one whose inner write or inner flush raises, the bytes being
discarded in that case — while the security-negotiated transport resets
its write buffer only on a successful flush and leaves it unchanged when
the inner write or flush raises.  No transport ever partially clears the
buffer. -/
theorem write_buffer_clear_discipline (t : TBufferedTransport) (buf : Bytes)
    (tf : TFramedTransport) (wrap : Bytes → Bytes) (ts : TSaslClientTransport) :
    (TBufferedTransport.writeExc t buf true).2.wbuf = [] ∧
    TBufferedTransport.writeExc t buf false = (true, t.write buf) ∧
    (TBufferedTransport.flush t).2.wbuf = [] ∧
    (TFramedTransport.flush tf).2.wbuf = [] ∧
    (TSaslClientTransport.flush wrap ts).2.wbuf =
      (if (TSaslClientTransport.flush wrap ts).1 then [] else ts.wbuf) := by
  refine ⟨?_, ?_, ?_, ?_, ?_⟩
  · simp [TBufferedTransport.writeExc]
  · simp [TBufferedTransport.writeExc, TBufferedTransport.write]
  · rcases hw : InnerTrans.write t.trans t.wbuf with _ | i1
    · simp [TBufferedTransport.flush, hw]
    · rcases hf : i1.flush with _ | i2 <;> simp [TBufferedTransport.flush, hw, hf]
  · rcases hw : InnerTrans.write tf.trans (encodeBE32 tf.wbuf.length ++ tf.wbuf) with _ | i1
    · simp [TFramedTransport.flush, hw]
    · rcases hf : i1.flush with _ | i2 <;> simp [TFramedTransport.flush, hw, hf]
  · rcases hw : InnerTrans.write ts.trans
        (encodeBE32 (wrap ts.wbuf).length ++ wrap ts.wbuf) with _ | i1
    · simp [TSaslClientTransport.flush, hw]
    · rcases hf : i1.flush with _ | i2 <;> simp [TSaslClientTransport.flush, hw, hf]

/-- C8: a framed flush with an empty write buffer writes exactly the four
zero bytes (a length-0 frame) and flushes the inner transport; a peer
framed transport with an exhausted read buffer that receives this
length-0 frame returns empty bytes from that `read` call, and its next
`read` call moves on to the following frame and serves its payload. -/
theorem framed_flush_empty_and_skip (rb b : Buf) (rd0 wb2 p rest : Bytes)
    (os : List InnerOp) (sz : Nat)
    (hb : b.data.length ≤ b.pos) (hp : p.length < 2 ^ 31) (hsz : 1 ≤ sz) :
    TFramedTransport.flush ⟨rb, [], ⟨rd0, false, false, os⟩⟩ =
      (true, ⟨rb, [], ⟨rd0, false, false,
        os ++ [InnerOp.write [0, 0, 0, 0], InnerOp.flush]⟩⟩) ∧
    TFramedTransport.read ⟨b, wb2, ⟨[0, 0, 0, 0] ++ (encodeFrame p ++ rest), false, false, []⟩⟩ sz =
      some ([], ⟨Buf.ofBytes [], wb2, ⟨encodeFrame p ++ rest, false, false, []⟩⟩) ∧
    TFramedTransport.read ⟨Buf.ofBytes [], wb2, ⟨encodeFrame p ++ rest, false, false, []⟩⟩ sz =
      some (p.take sz, ⟨⟨p, (p.take sz).length⟩, wb2, ⟨rest, false, false, []⟩⟩) := by
  refine ⟨?_, ?_, ?_⟩
  · simp [TFramedTransport.flush, InnerTrans.write, InnerTrans.flush, encodeBE32]
  · have hfr : TFramedTransport.readFrame
        ⟨b, wb2, ⟨[0, 0, 0, 0] ++ (encodeFrame p ++ rest), false, false, []⟩⟩ =
        some ⟨Buf.ofBytes [], wb2, ⟨encodeFrame p ++ rest, false, false, []⟩⟩ := by
      have h := readFrame_frame
        ⟨b, wb2, ⟨[0, 0, 0, 0] ++ (encodeFrame p ++ rest), false, false, []⟩⟩
        [] (encodeFrame p ++ rest) (by decide) (by simp [encodeFrame, encodeBE32])
      simpa using h
    simp only [TFramedTransport.read, Buf.read]
    rw [if_neg (by simp [List.drop_eq_nil_of_le hb])]
    simp only [hfr]
    simp [Buf.ofBytes, Buf.read]
  · have hfr2 : TFramedTransport.readFrame
        ⟨Buf.ofBytes [], wb2, ⟨encodeFrame p ++ rest, false, false, []⟩⟩ =
        some ⟨Buf.ofBytes p, wb2, ⟨rest, false, false, []⟩⟩ := by
      have h := readFrame_frame ⟨Buf.ofBytes [], wb2, ⟨encodeFrame p ++ rest, false, false, []⟩⟩
        p rest hp rfl
      simpa using h
    simp only [TFramedTransport.read, Buf.read]
    rw [if_neg (by simp [Buf.ofBytes])]
    simp only [hfr2]
    simp [Buf.ofBytes, Buf.read]

/-- Witness for C8: length-0 frame followed by the frame [9], request
size 1. -/
theorem framed_flush_empty_and_skip_witness :
    TFramedTransport.read ⟨Buf.ofBytes [], [], ⟨[0, 0, 0, 0] ++ (encodeFrame [9] ++ []),
        false, false, []⟩⟩ 1 =
      some ([], ⟨Buf.ofBytes [], [], ⟨encodeFrame [9] ++ [], false, false, []⟩⟩) ∧
    TFramedTransport.read ⟨Buf.ofBytes [], [], ⟨encodeFrame [9] ++ [], false, false, []⟩⟩ 1 =
      some (([9] : Bytes).take 1,
        ⟨⟨[9], (([9] : Bytes).take 1).length⟩, [], ⟨[], false, false, []⟩⟩) :=
  ⟨(framed_flush_empty_and_skip ⟨[], 0⟩ (Buf.ofBytes []) [] [] [9] [] [] 1
      (by decide) (by decide) (by decide)).2.1,
   (framed_flush_empty_and_skip ⟨[], 0⟩ (Buf.ofBytes []) [] [] [9] [] [] 1
      (by decide) (by decide) (by decide)).2.2⟩

theorem saslOpenLoop_bad {σ : Type} (cap : SaslCap σ) :
    ∀ (pre : List (Nat × Bytes)) (s : Nat) (c : Bytes) (rest : List (Nat × Bytes))
      (st : σ) (sends : List SaslEvent),
      (∀ m ∈ pre, m.1 = TSaslClientTransport.OK) →
      s ≠ TSaslClientTransport.OK →
      (s = TSaslClientTransport.COMPLETE → cap.complete (processPrefix cap pre st) = false) →
      (∀ e ∈ sends, e.isData = false) →
      ∃ sends2, saslOpenLoop cap (pre ++ (s, c) :: rest) st sends = OpenResult.notOpen sends2 ∧
        ∀ e ∈ sends2, e.isData = false := by
  intro pre
  induction pre with
  | nil =>
    intro s c rest st sends hok hs hc hsends
    simp only [List.nil_append, saslOpenLoop]
    rw [if_neg hs]
    by_cases hcomp : s = TSaslClientTransport.COMPLETE
    · have hc2 : cap.complete st = false := by
        simpa [processPrefix] using hc hcomp
      rw [if_pos hcomp, hc2]
      exact ⟨sends, rfl, hsends⟩
    · rw [if_neg hcomp]
      exact ⟨sends, rfl, hsends⟩
  | cons m pre ih =>
    intro s c rest st sends hok hs hc hsends
    obtain ⟨ms, mc⟩ := m
    have hmok : ms = TSaslClientTransport.OK := hok (ms, mc) (by simp)
    subst hmok
    simp only [List.cons_append, saslOpenLoop, if_pos]
    apply ih s c rest (cap.process st (some mc)).2
      (sends ++ [SaslEvent.saslMsg TSaslClientTransport.OK (cap.process st (some mc)).1])
    · intro x hx
      exact hok x (by simp [hx])
    · exact hs
    · intro hcomp
      simpa [processPrefix] using hc hcomp
    · intro e he
      rcases List.mem_append.mp he with h1 | h1
      · exact hsends e h1
      · simp only [List.mem_singleton] at h1
        subst h1
        rfl

/-- C4: whenever the negotiation loop, after any number of `OK` rounds,
receives a message whose status is not `OK` — `BAD`, `ERROR`, any other
unrecognised status, or `COMPLETE` while the capability still reports the
negotiation incomplete — `open()` raises the NotOpen transport exception,
and nothing it has sent is a wrapped data frame. -/
theorem sasl_open_bad_status {σ : Type} (cap : SaslCap σ) (st0 : σ)
    (pre : List (Nat × Bytes)) (s : Nat) (c : Bytes) (rest : List (Nat × Bytes))
    (hok : ∀ m ∈ pre, m.1 = TSaslClientTransport.OK)
    (hs : s ≠ TSaslClientTransport.OK)
    (hc : s = TSaslClientTransport.COMPLETE →
      cap.complete (processPrefix cap pre (cap.process st0 none).2) = false) :
    ∃ sends, TSaslClientTransport.openTrans cap st0 (pre ++ (s, c) :: rest) =
        OpenResult.notOpen sends ∧ ∀ e ∈ sends, e.isData = false := by
  simp only [TSaslClientTransport.openTrans]
  apply saslOpenLoop_bad cap pre s c rest _ _ hok hs hc
  intro e he
  simp only [List.mem_cons, List.not_mem_nil, or_false] at he
  rcases he with rfl | rfl <;> rfl

/-- Witness for C4: a trivial capability receiving status `BAD` first. -/
theorem sasl_open_bad_status_witness :
    ∃ sends, TSaslClientTransport.openTrans
        ⟨[1], fun _ _ => ([], ()), fun _ => false⟩ ()
        ([] ++ (TSaslClientTransport.BAD, []) :: []) = OpenResult.notOpen sends ∧
      ∀ e ∈ sends, e.isData = false :=
  sasl_open_bad_status ⟨[1], fun _ _ => ([], ()), fun _ => false⟩ () []
    TSaslClientTransport.BAD [] []
    (by intro m hm; exact absurd hm (List.not_mem_nil m))
    (by decide) (by intro h; exact absurd h (by decide))

theorem framed_refill_spec (fs : List Bytes) :
    ∀ (pfx : Bytes) (reqlen : Nat) (rb : Buf) (wb : Bytes) (wf ff : Bool) (os : List InnerOp),
    (∀ f ∈ fs, f.length < 2 ^ 31) →
    (if reqlen ≤ pfx.length + payloadLen fs then
      ∃ k, k ≤ fs.length ∧
        TFramedTransport.cstringio_refill ⟨rb, wb, ⟨encodeFrames fs, wf, ff, os⟩⟩ pfx reqlen =
          some ⟨Buf.ofBytes (pfx ++ (fs.take k).flatten), wb,
            ⟨encodeFrames (fs.drop k), wf, ff, os⟩⟩ ∧
        reqlen ≤ (pfx ++ (fs.take k).flatten).length
     else
      TFramedTransport.cstringio_refill ⟨rb, wb, ⟨encodeFrames fs, wf, ff, os⟩⟩ pfx reqlen =
        none) := by
  induction fs with
  | nil =>
    intro pfx reqlen rb wb wf ff os hfs
    have hpl : payloadLen ([] : List Bytes) = 0 := by simp [payloadLen]
    by_cases hle : reqlen ≤ pfx.length + payloadLen ([] : List Bytes)
    · rw [if_pos hle]
      refine ⟨0, by simp, ?_, ?_⟩
      · rw [framed_refill_unfold]
        rw [if_neg (by omega)]
        simp
      · simp only [List.take_nil, List.flatten_nil, List.append_nil]
        omega
    · rw [if_neg hle]
      rw [framed_refill_unfold]
      rw [if_pos (by omega)]
      have hfr : TFramedTransport.readFrame ⟨rb, wb, ⟨encodeFrames [], wf, ff, os⟩⟩ = none :=
        readFrame_short _ (by simp [encodeFrames])
      simp [hfr]
  | cons f rest ih =>
    intro pfx reqlen rb wb wf ff os hfs
    have hf : f.length < 2 ^ 31 := hfs f (by simp)
    have hrest : ∀ x ∈ rest, x.length < 2 ^ 31 := fun x hx => hfs x (by simp [hx])
    have hplc : payloadLen (f :: rest) = f.length + payloadLen rest := by
      simp [payloadLen]
    by_cases h0 : reqlen ≤ pfx.length
    · rw [if_pos (by omega)]
      refine ⟨0, by simp, ?_, ?_⟩
      · rw [framed_refill_unfold, if_neg (by omega)]
        simp
      · simp only [List.take_zero, List.flatten_nil, List.append_nil]
        omega
    · push_neg at h0
      have hfr : TFramedTransport.readFrame ⟨rb, wb, ⟨encodeFrames (f :: rest), wf, ff, os⟩⟩ =
          some ⟨Buf.ofBytes f, wb, ⟨encodeFrames rest, wf, ff, os⟩⟩ := by
        have h := readFrame_frame ⟨rb, wb, ⟨encodeFrames (f :: rest), wf, ff, os⟩⟩ f
          (encodeFrames rest) hf (by simp [encodeFrames_cons])
        simpa using h
      have hstep : TFramedTransport.cstringio_refill
          ⟨rb, wb, ⟨encodeFrames (f :: rest), wf, ff, os⟩⟩ pfx reqlen =
          TFramedTransport.cstringio_refill ⟨Buf.ofBytes f, wb, ⟨encodeFrames rest, wf, ff, os⟩⟩
            (pfx ++ f) reqlen := by
        rw [framed_refill_unfold, if_pos h0]
        simp [hfr, Buf.getvalue, Buf.ofBytes]
      have hih := ih (pfx ++ f) reqlen (Buf.ofBytes f) wb wf ff os hrest
      by_cases hle : reqlen ≤ pfx.length + payloadLen (f :: rest)
      · rw [if_pos hle]
        have hle2 : reqlen ≤ (pfx ++ f).length + payloadLen rest := by
          simp only [List.length_append]
          omega
        rw [if_pos hle2] at hih
        obtain ⟨k, hk, heq, hlen⟩ := hih
        refine ⟨k + 1, by simpa using hk, ?_, ?_⟩
        · rw [hstep, heq]
          simp
        · rw [List.take_succ_cons, List.flatten_cons, ← List.append_assoc]
          exact hlen
      · rw [if_neg hle]
        have hle2 : ¬ reqlen ≤ (pfx ++ f).length + payloadLen rest := by
          simp only [List.length_append]
          omega
        rw [if_neg hle2] at hih
        rw [hstep]
        exact hih

theorem sasl_read_frame_frame (unwrap : Bytes → Bytes) (t : TSaslClientTransport)
    (f rest : Bytes) (hf : f.length < 2 ^ 31)
    (hch : t.trans.rdata = encodeFrame f ++ rest) :
    t.read_frame unwrap =
      some { t with rbuf := Buf.ofBytes (unwrap f), trans := { t.trans with rdata := rest } } := by
  have h4 := InnerTrans.readAll_exact_pfx (encodeBE32 f.length) (f ++ rest) t.trans 4
    (encodeBE32_length f.length).symm (by rw [hch]; simp [encodeFrame])
  have hp := InnerTrans.readAll_exact_pfx f rest { t.trans with rdata := f ++ rest } f.length rfl rfl
  simp only [TSaslClientTransport.read_frame, h4]
  simp [decodeI32_encodeBE32 f.length hf, hp]

theorem sasl_read_frame_short (unwrap : Bytes → Bytes) (t : TSaslClientTransport)
    (hch : t.trans.rdata.length < 4) :
    t.read_frame unwrap = none := by
  simp only [TSaslClientTransport.read_frame, InnerTrans.readAll]
  rw [if_neg (by omega)]

theorem sasl_refill_spec (unwrap : Bytes → Bytes) (fs : List Bytes) :
    ∀ (pfx : Bytes) (reqlen : Nat) (rb : Buf) (wb : Bytes) (wf ff : Bool) (os : List InnerOp),
    (∀ f ∈ fs, f.length < 2 ^ 31) →
    (if reqlen ≤ pfx.length + payloadLen (fs.map unwrap) then
      ∃ k, k ≤ fs.length ∧
        TSaslClientTransport.cstringio_refill unwrap ⟨wb, rb, ⟨encodeFrames fs, wf, ff, os⟩⟩
            pfx reqlen =
          some ⟨wb, Buf.ofBytes (pfx ++ ((fs.take k).map unwrap).flatten),
            ⟨encodeFrames (fs.drop k), wf, ff, os⟩⟩ ∧
        reqlen ≤ (pfx ++ ((fs.take k).map unwrap).flatten).length
     else
      TSaslClientTransport.cstringio_refill unwrap ⟨wb, rb, ⟨encodeFrames fs, wf, ff, os⟩⟩
        pfx reqlen = none) := by
  induction fs with
  | nil =>
    intro pfx reqlen rb wb wf ff os hfs
    have hpl : payloadLen (List.map unwrap []) = 0 := by simp [payloadLen]
    by_cases hle : reqlen ≤ pfx.length + payloadLen (List.map unwrap [])
    · rw [if_pos hle]
      refine ⟨0, by simp, ?_, ?_⟩
      · rw [sasl_refill_unfold]
        rw [if_neg (by omega)]
        simp
      · simp only [List.take_nil, List.map_nil, List.flatten_nil, List.append_nil]
        omega
    · rw [if_neg hle]
      rw [sasl_refill_unfold]
      rw [if_pos (by omega)]
      have hfr : TSaslClientTransport.read_frame unwrap
          ⟨wb, rb, ⟨encodeFrames [], wf, ff, os⟩⟩ = none :=
        sasl_read_frame_short unwrap _ (by simp [encodeFrames])
      simp [hfr]
  | cons f rest ih =>
    intro pfx reqlen rb wb wf ff os hfs
    have hf : f.length < 2 ^ 31 := hfs f (by simp)
    have hrest : ∀ x ∈ rest, x.length < 2 ^ 31 := fun x hx => hfs x (by simp [hx])
    have hplc : payloadLen ((f :: rest).map unwrap) =
        (unwrap f).length + payloadLen (rest.map unwrap) := by
      simp [payloadLen]
    by_cases h0 : reqlen ≤ pfx.length
    · rw [if_pos (by omega)]
      refine ⟨0, by simp, ?_, ?_⟩
      · rw [sasl_refill_unfold, if_neg (by omega)]
        simp
      · simp only [List.take_zero, List.map_nil, List.flatten_nil, List.append_nil]
        omega
    · push_neg at h0
      have hfr : TSaslClientTransport.read_frame unwrap
          ⟨wb, rb, ⟨encodeFrames (f :: rest), wf, ff, os⟩⟩ =
          some ⟨wb, Buf.ofBytes (unwrap f), ⟨encodeFrames rest, wf, ff, os⟩⟩ := by
        have h := sasl_read_frame_frame unwrap ⟨wb, rb, ⟨encodeFrames (f :: rest), wf, ff, os⟩⟩ f
          (encodeFrames rest) hf (by simp [encodeFrames_cons])
        simpa using h
      have hstep : TSaslClientTransport.cstringio_refill unwrap
          ⟨wb, rb, ⟨encodeFrames (f :: rest), wf, ff, os⟩⟩ pfx reqlen =
          TSaslClientTransport.cstringio_refill unwrap
            ⟨wb, Buf.ofBytes (unwrap f), ⟨encodeFrames rest, wf, ff, os⟩⟩
            (pfx ++ unwrap f) reqlen := by
        rw [sasl_refill_unfold, if_pos h0]
        simp [hfr, Buf.getvalue, Buf.ofBytes]
      have hih := ih (pfx ++ unwrap f) reqlen (Buf.ofBytes (unwrap f)) wb wf ff os hrest
      by_cases hle : reqlen ≤ pfx.length + payloadLen ((f :: rest).map unwrap)
      · rw [if_pos hle]
        have hle2 : reqlen ≤ (pfx ++ unwrap f).length + payloadLen (rest.map unwrap) := by
          simp only [List.length_append]
          omega
        rw [if_pos hle2] at hih
        obtain ⟨k, hk, heq, hlen⟩ := hih
        refine ⟨k + 1, by simpa using hk, ?_, ?_⟩
        · rw [hstep, heq]
          simp
        · rw [List.take_succ_cons, List.map_cons, List.flatten_cons, ← List.append_assoc]
          exact hlen
      · rw [if_neg hle]
        have hle2 : ¬ reqlen ≤ (pfx ++ unwrap f).length + payloadLen (rest.map unwrap) := by
          simp only [List.length_append]
          omega
        rw [if_neg hle2] at hih
        rw [hstep]
        exact hih

/-- C7: for a framed transport (and a security-negotiated transport with
its `unwrap`), `cstringio_refill(pfx, reqlen)` over a channel holding a
sequence of frames consumes whole frames, appending each frame's payload
(un-wrapped in the SASL case) to `pfx`, until at least `reqlen` bytes are
accumulated; it installs the accumulated bytes as the new read buffer; and
if the inner stream ends before `reqlen` bytes can be accumulated, it
fails with EndOfFile. -/
theorem refill_pulls_frames (fs : List Bytes) (unwrap : Bytes → Bytes) (pfx : Bytes)
    (reqlen : Nat) (rb : Buf) (wb : Bytes) (wf ff : Bool) (os : List InnerOp)
    (hfs : ∀ f ∈ fs, f.length < 2 ^ 31) :
    (if reqlen ≤ pfx.length + payloadLen fs then
      ∃ k, k ≤ fs.length ∧
        TFramedTransport.cstringio_refill ⟨rb, wb, ⟨encodeFrames fs, wf, ff, os⟩⟩ pfx reqlen =
          some ⟨Buf.ofBytes (pfx ++ (fs.take k).flatten), wb,
            ⟨encodeFrames (fs.drop k), wf, ff, os⟩⟩ ∧
        reqlen ≤ (pfx ++ (fs.take k).flatten).length
     else
      TFramedTransport.cstringio_refill ⟨rb, wb, ⟨encodeFrames fs, wf, ff, os⟩⟩ pfx reqlen =
        none) ∧
    (if reqlen ≤ pfx.length + payloadLen (fs.map unwrap) then
      ∃ k, k ≤ fs.length ∧
        TSaslClientTransport.cstringio_refill unwrap ⟨wb, rb, ⟨encodeFrames fs, wf, ff, os⟩⟩
            pfx reqlen =
          some ⟨wb, Buf.ofBytes (pfx ++ ((fs.take k).map unwrap).flatten),
            ⟨encodeFrames (fs.drop k), wf, ff, os⟩⟩ ∧
        reqlen ≤ (pfx ++ ((fs.take k).map unwrap).flatten).length
     else
      TSaslClientTransport.cstringio_refill unwrap ⟨wb, rb, ⟨encodeFrames fs, wf, ff, os⟩⟩
        pfx reqlen = none) :=
  ⟨framed_refill_spec fs pfx reqlen rb wb wf ff os hfs,
   sasl_refill_spec unwrap fs pfx reqlen rb wb wf ff os hfs⟩

/-- Witness for C7: two one-byte frames, identity unwrap, request of two
bytes spanning both frames. -/
theorem refill_pulls_frames_witness :
    (if 2 ≤ ([] : Bytes).length + payloadLen [[1], [2]] then
      ∃ k, k ≤ ([[1], [2]] : List Bytes).length ∧
        TFramedTransport.cstringio_refill
            ⟨⟨[], 0⟩, [], ⟨encodeFrames [[1], [2]], false, false, []⟩⟩ [] 2 =
          some ⟨Buf.ofBytes ([] ++ (([[1], [2]] : List Bytes).take k).flatten), [],
            ⟨encodeFrames (([[1], [2]] : List Bytes).drop k), false, false, []⟩⟩ ∧
        2 ≤ (([] : Bytes) ++ (([[1], [2]] : List Bytes).take k).flatten).length
     else
      TFramedTransport.cstringio_refill
        ⟨⟨[], 0⟩, [], ⟨encodeFrames [[1], [2]], false, false, []⟩⟩ [] 2 = none) ∧
    (if 2 ≤ ([] : Bytes).length + payloadLen (([[1], [2]] : List Bytes).map id) then
      ∃ k, k ≤ ([[1], [2]] : List Bytes).length ∧
        TSaslClientTransport.cstringio_refill id
            ⟨[], ⟨[], 0⟩, ⟨encodeFrames [[1], [2]], false, false, []⟩⟩ [] 2 =
          some ⟨[], Buf.ofBytes ([] ++ ((([[1], [2]] : List Bytes).take k).map id).flatten),
            ⟨encodeFrames (([[1], [2]] : List Bytes).drop k), false, false, []⟩⟩ ∧
        2 ≤ (([] : Bytes) ++ ((([[1], [2]] : List Bytes).take k).map id).flatten).length
     else
      TSaslClientTransport.cstringio_refill id
        ⟨[], ⟨[], 0⟩, ⟨encodeFrames [[1], [2]], false, false, []⟩⟩ [] 2 = none) :=
  refill_pulls_frames [[1], [2]] id [] 2 ⟨[], 0⟩ [] false false [] (by decide)
